import Mathlib

/-!
Verification development for the YAML state-test loader
(`testool/src/statetest/yaml.rs`): a shallow embedding of the loader's
data model and algorithms, followed by theorems about them.

Conventions of the embedding:
* Rust `Result::Err` values (from `bail!` / `?`) are modelled by `Res.err`;
  Rust panics (`unwrap`, `expect`, arithmetic overflow of `U256 +`) are
  modelled by `Res.panicked`.  The two are distinct outcomes: an `err` is
  surfaced to the caller of `load_yaml`, a panic aborts the process.
* Rust strings are modelled as `List Char` where character-level scanning
  matters (`decompose_tags`), and as Lean `String` elsewhere.
* `U256` values are `Nat`s; the points where a Rust `U256` addition can
  overflow (and hence panic) carry an explicit `2 ^ 256` bound.
* Addresses (20-byte values) are `Nat`s holding the big-endian value.
* `HashMap` tag maps are association lists with insert-overwrites-key
  semantics; only key lookup is ever observed.
-/

/-- Outcome of running a piece of Rust code: a value, a recoverable
`Result::Err` surfaced to the caller, or a process-aborting panic. -/
inductive Res (α : Type) where
  | ok (a : α)
  | err
  | panicked
deriving Repr, DecidableEq

/-- Character used by Rust's decimal `Display` formatting for one digit.
Only arguments below 10 occur. -/
def digitChar : Nat → Char
  | 0 => '0'
  | 1 => '1'
  | 2 => '2'
  | 3 => '3'
  | 4 => '4'
  | 5 => '5'
  | 6 => '6'
  | 7 => '7'
  | 8 => '8'
  | 9 => '9'
  | _ => '*'

/-- Fuel-driven worker for `decRepr`.  The fuel always exceeds the number,
so the `0` fuel case is unreachable. -/
def decReprAux : Nat → Nat → List Char
  | 0, _ => []
  | fuel + 1, n =>
    if n < 10 then [digitChar n]
    else decReprAux fuel (n / 10) ++ [digitChar (n % 10)]

/-- Decimal rendering of a `usize`, as produced by Rust's `{}` (`Display`)
formatting of an index in `format!` — the embedding of the digit strings
appearing inside generated test ids. -/
def decRepr (n : Nat) : List Char :=
  decReprAux (n + 1) n

/-- Rust `char::is_whitespace`: membership in the Unicode `White_Space`
set (U+0009-U+000D, U+0020, U+0085, U+00A0, U+1680, U+2000-U+200A,
U+2028, U+2029, U+202F, U+205F, U+3000). -/
def isRustWhitespace (c : Char) : Bool :=
  let n := c.toNat
  (0x09 ≤ n && n ≤ 0x0d) || n = 0x20 || n = 0x85 || n = 0xa0 || n = 0x1680 ||
    (0x2000 ≤ n && n ≤ 0x200a) || n = 0x2028 || n = 0x2029 || n = 0x202f ||
    n = 0x205f || n = 0x3000

/-- Embedding of Rust `str::trim`: drop whitespace from both ends. -/
def rustTrim (l : List Char) : List Char :=
  ((l.dropWhile isRustWhitespace).reverse.dropWhile isRustWhitespace).reverse

/-- Embedding of Rust `str::find` with a character-pattern: index of the
first character satisfying the predicate. -/
def findChar (p : Char → Bool) : List Char → Option Nat
  | [] => none
  | c :: cs => if p c then some 0 else (findChar p cs).map (· + 1)

/-- Embedding of `HashMap::insert` on an association list: the new binding
replaces any previous binding of the same key. -/
def insertTag (m : List (String × String)) (k v : String) : List (String × String) :=
  m.filter (fun p => p.1 ≠ k) ++ [(k, v)]

/-- Lookup in the tag map produced by `decompose_tags`
(embeds `HashMap::get`). -/
def lookupTag (m : List (String × String)) (k : String) : Option String :=
  (m.find? (fun p => p.1 = k)).map (fun p => p.2)

/-- Length of the value consumed for a tag (`value_len` in the loop of
`decompose_tags`, lines 291-295): the whole remaining text for `:yul` and
`:solidity`, otherwise the text up to the next `:` or the end. -/
def tagValueLen (tag it1 : List Char) : Nat :=
  if String.mk tag = ":yul" || String.mk tag = ":solidity" then it1.length
  else (findChar (fun ch => ch = ':') it1).getD it1.length

/-- Loop body of `YamlStateTestBuilder::decompose_tags`, lines 287-302 of
`yaml.rs`.  One fuel unit is spent per loop iteration; the caller passes
more fuel than iterations can occur, so fuel exhaustion (`.err`) is
unreachable.  When the cursor starts with `:` but holds no space and no
newline, `it.find([' ', '\n']).expect("unable to find end tag")` panics,
modelled by `.panicked`. -/
def decomposeTagsGo : Nat → List Char → List (String × String) → Res (List (String × String))
  | 0, _, _ => .err
  | _ + 1, [], tags => .ok tags
  | fuel + 1, c :: rest, tags =>
    if c = ':' then
      match findChar (fun ch => ch = ' ' || ch = '\n') (c :: rest) with
      | none => .panicked
      | some idx =>
        decomposeTagsGo fuel
          (((c :: rest).drop (idx + 1)).drop
            (tagValueLen ((c :: rest).take idx) ((c :: rest).drop (idx + 1))))
          (insertTag tags (String.mk ((c :: rest).take idx))
            (String.mk (rustTrim (((c :: rest).drop (idx + 1)).take
              (tagValueLen ((c :: rest).take idx) ((c :: rest).drop (idx + 1)))))))
    else
      .ok (insertTag tags "" (String.mk (rustTrim (c :: rest))))

/-- Embedding of `YamlStateTestBuilder::decompose_tags` (lines 281-305):
trim the input; an empty result yields the single empty-tag entry,
otherwise the scanning loop runs on the trimmed text. -/
def decompose_tags (s : String) : Res (List (String × String)) :=
  let it := rustTrim s.data
  if it = [] then .ok (insertTag [] "" "")
  else decomposeTagsGo (it.length + 1) it []

/-- Selector kind (`Ref`, yaml.rs lines 16-21): wildcard, zero-based
index, or label. -/
inductive Ref where
  | Any
  | Index (i : Nat)
  | Label (s : String)
deriving Repr, DecidableEq

/-- Selector set (`Refs`, line 23): a list of selectors. -/
structure Refs where
  val : List Ref
deriving Repr, DecidableEq

/-- Embedding of `Refs::contains_index` (lines 26-32): some selector is
the given index or the wildcard; labels never match an index. -/
def Refs.contains_index (r : Refs) (idx : Nat) : Bool :=
  r.val.any fun x =>
    match x with
    | .Index i => i == idx
    | .Label _ => false
    | .Any => true

/-- Embedding of `Refs::contains_label` (lines 33-39): some selector is
the given label or the wildcard; indices never match a label. -/
def Refs.contains_label (r : Refs) (lbl : String) : Bool :=
  r.val.any fun x =>
    match x with
    | .Index _ => false
    | .Label l => l == lbl
    | .Any => true

/-- Shape of a yaml node as far as `parse_refs` and `parse_address`
inspect it: `badvalue` is a missing field, `other` stands for any node
that is neither an integer nor a string nor an array. -/
inductive YamlV where
  | badvalue
  | int (i : Int)
  | str (s : String)
  | arr (xs : List YamlV)
  | other

/-- Two's-complement cast of an `i64` to a `usize` (Rust `as usize`),
which is also the value printed by `format!("{i:040x}")`. -/
def i64AsUsize (i : Int) : Nat :=
  (i % (2 : Int) ^ 64).toNat

/-- Embedding of Rust `usize::from_str`, used for the `lo-hi` range bounds
in `parse_refs`: an optional leading `+`, then decimal digits, value below
`2 ^ 64`. -/
def rustParseUsize (l : List Char) : Option Nat :=
  let ds := match l with
    | '+' :: rest => rest
    | _ => l
  if !ds.isEmpty && ds.all (fun c => c.isDigit) then
    let v := ds.foldl (fun a c => a * 10 + (c.toNat - 48)) 0
    if v < 2 ^ 64 then some v else none
  else none

/-- Embedding of one element handled by `parse_refs` (lines 438-464):
integer `-1` is the wildcard, any other integer an index (cast `as
usize`); a string bearing a `:label` tag is a label selector, a string
containing `-` a `lo-hi` inclusive index range (`str::contains('-')` is
equivalent to `findChar` succeeding), anything else an `InvalidReference`
error.  A panic inside `decompose_tags` propagates. -/
def parseRefElem (y : YamlV) : Res (List Ref) :=
  match y with
  | .int i => .ok (if i = -1 then [Ref.Any] else [Ref.Index (i64AsUsize i)])
  | .str s =>
    match decompose_tags s with
    | .panicked => .panicked
    | .err => .err
    | .ok tags =>
      match lookupTag tags (":label") with
      | some label => .ok [Ref.Label label]
      | none =>
        match findChar (fun c => c = '-') s.data with
        | some i =>
          match rustParseUsize (s.data.take i), rustParseUsize (s.data.drop (i + 1)) with
          | some lo, some hi => .ok ((List.range' lo (hi + 1 - lo)).map Ref.Index)
          | _, _ => .err
        | none => .err
  | _ => .err

/-- Accumulating loop over the selector elements of `parse_refs`. -/
def parseRefsList : List YamlV → List Ref → Res Refs
  | [], acc => .ok (Refs.mk acc)
  | y :: ys, acc =>
    match parseRefElem y with
    | .ok rs => parseRefsList ys (acc ++ rs)
    | .err => .err
    | .panicked => .panicked

/-- Embedding of `YamlStateTestBuilder::parse_refs` (lines 423-467): a
missing field is the wildcard selector set; a non-array node is treated as
a one-element list; the elements are parsed in order. -/
def parse_refs (y : YamlV) : Res Refs :=
  match y with
  | .badvalue => .ok (Refs.mk [Ref.Any])
  | .arr xs => parseRefsList xs []
  | _ => parseRefsList [y] []

/-- Value of `hex::decode(format!("{i:0>40}"))` as a 20-byte address, for
the fallback arm of `parse_address`: the decimal digits of `i` are
reinterpreted as hex digits (so the literal `10` becomes the byte
`0x10`).  A negative `i` renders with a `-` sign, which is not a hex
digit, so `hex::decode` fails with an error. -/
def addressFromDecimalAsHex (i : Int) : Res Nat :=
  if i < 0 then .err
  else .ok ((decRepr i.toNat).foldl (fun a c => a * 16 + (c.toNat - 48)) 0)

/-- Embedding of the integer (`as_i64`) arm of
`YamlStateTestBuilder::parse_address` (lines 313-326): when an
expected-address set is supplied, the integer is first formatted as
compact hex (`{i:040x}`) and that address is returned when it belongs to
the set; otherwise — and always when no set is supplied — the decimal
digits are read as hex digits (`{i:0>40}`).  The string and real arms
delegate to the external `parse` collaborator and are outside this
embedding. -/
def parse_address_int (i : Int) (expected_addresses : Option (List Nat)) : Res Nat :=
  match expected_addresses with
  | some exp =>
    if i64AsUsize i ∈ exp then .ok (i64AsUsize i)
    else addressFromDecimalAsHex i
  | none => addressFromDecimalAsHex i

/-- Embedding of the gas-price resolution of `load_yaml` (lines 105-116):
a successfully parsed `gasPrice` field wins; otherwise
`max_fee_per_gas.unwrap()` / `max_priority_fee_per_gas.unwrap()` panic
when either field is absent, the `U256` sum
`max_priority_fee_per_gas + current_base_fee` panics on overflow, and
otherwise the EIP-1559 price `min(max_fee, max_priority + base_fee)`
results.  No arm produces a recoverable error. -/
def resolve_gas_price (gas_price_parsed max_fee_per_gas max_priority_fee_per_gas : Option Nat)
    (current_base_fee : Nat) : Res Nat :=
  match gas_price_parsed with
  | some gp => .ok gp
  | none =>
    match max_fee_per_gas with
    | none => .panicked
    | some mf =>
      match max_priority_fee_per_gas with
      | none => .panicked
      | some mp =>
        if mp + current_base_fee < 2 ^ 256 then .ok (min mf (mp + current_base_fee))
        else .panicked

/-- Block-level execution context (`Env`), all scalar fields as parsed
values. -/
structure Env where
  current_base_fee : Nat
  current_coinbase : Nat
  current_difficulty : Nat
  current_gas_limit : Nat
  current_number : Nat
  current_timestamp : Nat
  previous_hash : Nat
deriving Repr, DecidableEq

/-- Fully defined pre-state account (`Account`). -/
structure Account where
  address : Nat
  balance : Nat
  code : List Nat
  nonce : Nat
  storage : List (Nat × Nat)
deriving Repr, DecidableEq

/-- Partial expected-result account (`AccountMatch`): absent fields are
not checked. -/
structure AccountMatch where
  address : Nat
  balance : Option Nat
  code : Option (List Nat)
  nonce : Option Nat
  storage : List (Nat × Nat)
deriving Repr, DecidableEq

/-- One calldata variant (`parse::Calldata`): payload bytes, optional
label, optional access list of (address, storage keys) pairs. -/
structure Calldata where
  data : List Nat
  label : Option String
  access_list : Option (List (Nat × List Nat))
deriving Repr, DecidableEq

/-- One retained expectation: the tuple
`(exception, data_refs, gas_refs, value_refs, result)` pushed onto
`expects` in `load_yaml` (line 157). -/
structure Expectation where
  exception : Bool
  data_refs : Refs
  gas_refs : Refs
  value_refs : Refs
  result : List (Nat × AccountMatch)
deriving Repr, DecidableEq

/-- One emitted test case (`StateTest`), with the fields filled exactly as
in lines 188-208 of `load_yaml`.  `from` and `to` are Lean
keywords, hence `from_addr` and `to_addr`. -/
structure StateTest where
  path : String
  id : String
  env : Env
  pre : List (Nat × Account)
  result : List (Nat × AccountMatch)
  from_addr : Nat
  secret_key : List Nat
  to_addr : Option Nat
  gas_limit : Nat
  max_priority_fee_per_gas : Option Nat
  max_fee_per_gas : Option Nat
  gas_price : Nat
  nonce : Nat
  value : Nat
  data : List Nat
  access_list : Option (List (Nat × List Nat))
  exception : Bool
deriving Repr, DecidableEq

/-- One raw `expect` entry as read from the document (lines 125-155),
before the network-filter decides whether it is retained: the network
list, the optional `expectException` mapping, the three parsed selector
sets and the parsed result mapping. -/
structure RawExpect where
  networks : List String
  expectException : Option (List (String × String))
  data_refs : Refs
  gas_refs : Refs
  value_refs : Refs
  result : List (Nat × AccountMatch)
deriving Repr

/-- One parsed fixture: the per-test locals of `load_yaml` just before the
cross-product loop of lines 163-213.  `from_addr` is the address derived
from the secret key by the external `secret_key_to_address` collaborator;
`gas_price` is the value resolved by `resolve_gas_price`. -/
structure Fixture where
  test_name : String
  env : Env
  pre : List (Nat × Account)
  data_s : List Calldata
  gas_limit_s : List Nat
  value_s : List Nat
  max_priority_fee_per_gas : Option Nat
  max_fee_per_gas : Option Nat
  gas_price : Nat
  nonce : Nat
  to_addr : Option Nat
  secret_key : List Nat
  from_addr : Nat
  expects_raw : List RawExpect
deriving Repr

/-- Characters of `data_label` (lines 169-176): `({label})` when the
variant carries a label, empty otherwise. -/
def dataLabelSuffixChars (cd : Calldata) : List Char :=
  match cd.label with
  | some l => '(' :: (l.data ++ [')'])
  | none => []

/-- The id string
`format!("{test_name}_d{idx_data}{data_label}_g{idx_gas}_v{idx_value}")`
of line 190. -/
def testId (test_name : String) (idx_data : Nat) (cd : Calldata) (idx_gas idx_value : Nat) :
    String :=
  String.mk (test_name.data ++ (['_', 'd'] ++ decRepr idx_data) ++ dataLabelSuffixChars cd ++
    (['_', 'g'] ++ decRepr idx_gas) ++ (['_', 'v'] ++ decRepr idx_value))

/-- The admission test of lines 169-185: the data selector set is
consulted by label when the variant is labeled and by index otherwise;
the gas and value selector sets are always consulted by index. -/
def admitsTriple (e : Expectation) (cd : Calldata) (idx_data idx_gas idx_value : Nat) : Bool :=
  (match cd.label with
   | some label => Refs.contains_label e.data_refs label
   | none => Refs.contains_index e.data_refs idx_data)
  && Refs.contains_index e.gas_refs idx_gas
  && Refs.contains_index e.value_refs idx_value

/-- The `StateTest` literal pushed at lines 188-208. -/
def mkStateTest (path : String) (f : Fixture) (idx_data : Nat) (cd : Calldata)
    (idx_gas gas_limit idx_value value : Nat) (e : Expectation) : StateTest :=
  { path := path
    id := testId f.test_name idx_data cd idx_gas idx_value
    env := f.env
    pre := f.pre
    result := e.result
    from_addr := f.from_addr
    secret_key := f.secret_key
    to_addr := f.to_addr
    gas_limit := gas_limit
    max_priority_fee_per_gas := f.max_priority_fee_per_gas
    max_fee_per_gas := f.max_fee_per_gas
    gas_price := f.gas_price
    nonce := f.nonce
    value := value
    data := cd.data
    access_list := cd.access_list
    exception := e.exception }

/-- The inner scan of lines 166-210 for one `(data, gas, value)` triple:
the first retained expectation (in document order) admitting the triple
is bound and one test is emitted; if none admits, nothing is emitted. -/
def emitTriple (path : String) (f : Fixture) (expects : List Expectation) (idx_data : Nat)
    (cd : Calldata) (idx_gas gas_limit idx_value value : Nat) : Option StateTest :=
  (expects.find? (fun e => admitsTriple e cd idx_data idx_gas idx_value)).map
    (fun e => mkStateTest path f idx_data cd idx_gas gas_limit idx_value value e)

/-- The row-major cross product of the three `enumerate()`d variant lists,
matching the loop nest of lines 163-165. -/
def tripleList (f : Fixture) : List ((Nat × Calldata) × (Nat × Nat) × (Nat × Nat)) :=
  f.data_s.enum ×ˢ (f.gas_limit_s.enum ×ˢ f.value_s.enum)

/-- Embedding of the combinatorial expander (lines 161-213): one optional
test per triple of the cross product, in loop order. -/
def generateTests (path : String) (f : Fixture) (expects : List Expectation) : List StateTest :=
  (tripleList f).filterMap fun t =>
    emitTriple path f expects t.1.1 t.1.2 t.2.1.1 t.2.1.2 t.2.2.1 t.2.2.2

/-- Embedding of the `expectException` scan (lines 137-146): the flag is
set iff the active-network predicate `p` (the external
`MainnetFork::in_network_range` collaborator) admits at least one of the
mapping's network keys as a singleton range list. -/
def computeException (p : List String → Bool) (exceptions : Option (List (String × String))) :
    Bool :=
  match exceptions with
  | none => false
  | some l => l.any (fun pr => p [pr.1])

/-- Embedding of the body of the `expect` loop (lines 125-159) for one
entry: the expectation is retained iff `p` admits its network list. -/
def processExpect (p : List String → Bool) (r : RawExpect) : Option Expectation :=
  if p r.networks then
    some { exception := computeException p r.expectException
           data_refs := r.data_refs
           gas_refs := r.gas_refs
           value_refs := r.value_refs
           result := r.result }
  else none

/-- The retained expectation list, in document order. -/
def retainExpects (p : List String → Bool) (raw : List RawExpect) : List Expectation :=
  raw.filterMap (processExpect p)

/-- One fixture processed end to end: filter the expectations, then expand
the cross product. -/
def loadFixture (p : List String → Bool) (path : String) (f : Fixture) : List StateTest :=
  generateTests path f (retainExpects p f.expects_raw)

/-- Embedding of one `load_yaml` call over the parsed fixtures of a
document: the per-fixture test lists are concatenated in document order
(the `tests` accumulator of line 68). -/
def loadTests (p : List String → Bool) (path : String) (fs : List Fixture) : List StateTest :=
  fs.flatMap (loadFixture p path)

/-- Concrete environment used by the example fixtures below (the values
mirror the repository's own `TEMPLATE` fixture). -/
def exEnv : Env :=
  { current_base_fee := 10
    current_coinbase := 1
    current_difficulty := 131072
    current_gas_limit := 100000000
    current_number := 1
    current_timestamp := 1000
    previous_hash := 6 }

/-- Unlabeled calldata variant. -/
def cdPlain : Calldata := { data := [0], label := none, access_list := none }

/-- Labeled calldata variant with an access list. -/
def cdLabeled : Calldata :=
  { data := [1], label := some "data1", access_list := some [(61, [24743, 48879])] }

/-- The all-wildcard selector set. -/
def wildRefs : Refs := Refs.mk [Ref.Any]

/-- A partial expected account. -/
def amC : AccountMatch :=
  { address := 204, balance := some 10, code := none, nonce := none, storage := [] }

/-- Catch-all retained expectation. -/
def eWild : Expectation :=
  { exception := false
    data_refs := wildRefs
    gas_refs := wildRefs
    value_refs := wildRefs
    result := [(204, amC)] }

/-- Retained expectation selecting label `data1`, gas index 1, value
index 1. -/
def eLabel : Expectation :=
  { exception := false
    data_refs := Refs.mk [Ref.Label "data1"]
    gas_refs := Refs.mk [Ref.Index 1]
    value_refs := Refs.mk [Ref.Index 1]
    result := [] }

/-- Raw catch-all expectation, before network filtering. -/
def rawWild : RawExpect :=
  { networks := [">=Istanbul"]
    expectException := none
    data_refs := wildRefs
    gas_refs := wildRefs
    value_refs := wildRefs
    result := [(204, amC)] }

/-- Raw expectation carrying an `expectException` mapping. -/
def rawExc : RawExpect :=
  { networks := [">=Istanbul"]
    expectException := some [(">=Istanbul", "TR_TypeNotSupported")]
    data_refs := wildRefs
    gas_refs := wildRefs
    value_refs := wildRefs
    result := [] }

/-- A concrete active-network predicate: admits exactly the filter list
`[">=Istanbul"]`. -/
def pIstanbul : List String → Bool := fun ns => ns == [">=Istanbul"]

/-- The expectation `processExpect pIstanbul rawExc` retains. -/
def eExc : Expectation :=
  { exception := true
    data_refs := wildRefs
    gas_refs := wildRefs
    value_refs := wildRefs
    result := [] }

/-- A 2 x 2 x 2 fixture in the shape of the repository's `TEMPLATE`. -/
def fixArith : Fixture :=
  { test_name := "arith"
    env := exEnv
    pre := []
    data_s := [cdPlain, cdLabeled]
    gas_limit_s := [80000000, 80000001]
    value_s := [1, 2]
    max_priority_fee_per_gas := none
    max_fee_per_gas := none
    gas_price := 10
    nonce := 0
    to_addr := some 204
    secret_key := [69]
    from_addr := 7
    expects_raw := [rawWild] }

/-- Calldata variant whose label contains `)`, `(` and `_` — all of which
`decompose_tags` permits in a `:label` value. -/
def cdCollide1 : Calldata := { data := [], label := some "0)_g0_v0_d0(0", access_list := none }

/-- Calldata variant labeled `0`. -/
def cdCollide2 : Calldata := { data := [], label := some "0", access_list := none }

/-- First fixture of the id-collision document. -/
def fixCollide1 : Fixture :=
  { test_name := "t"
    env := exEnv
    pre := []
    data_s := [cdCollide1]
    gas_limit_s := [0]
    value_s := [0]
    max_priority_fee_per_gas := none
    max_fee_per_gas := none
    gas_price := 10
    nonce := 0
    to_addr := none
    secret_key := []
    from_addr := 7
    expects_raw := [rawWild] }

/-- Second fixture of the id-collision document: its name absorbs the
first half of the other fixture's id. -/
def fixCollide2 : Fixture :=
  { test_name := "t_d0(0)_g0_v0"
    env := exEnv
    pre := []
    data_s := [cdCollide2]
    gas_limit_s := [0]
    value_s := [0]
    max_priority_fee_per_gas := none
    max_fee_per_gas := none
    gas_price := 10
    nonce := 0
    to_addr := none
    secret_key := []
    from_addr := 7
    expects_raw := [rawWild] }

/-- One concrete emitted test of `fixArith`. -/
def stW : StateTest := mkStateTest "" fixArith 0 cdPlain 0 80000000 0 1 eWild

theorem decReprAux_fuel_irrel :
    ∀ (f₁ : Nat) (n f₂ : Nat), n < f₁ → n < f₂ → decReprAux f₁ n = decReprAux f₂ n := by
  intro f₁
  induction f₁ with
  | zero => intro n f₂ h _; omega
  | succ f ih =>
    intro n f₂ h1 h2
    cases f₂ with
    | zero => omega
    | succ f' =>
      simp only [decReprAux]
      by_cases hn : n < 10
      · simp [hn]
      · simp only [hn, if_false]
        have hd : n / 10 < n := Nat.div_lt_self (by omega) (by omega)
        rw [ih (n / 10) f' (by omega) (by omega)]

theorem decReprAux_succ (fuel n : Nat) :
    decReprAux (fuel + 1) n =
      if n < 10 then [digitChar n] else decReprAux fuel (n / 10) ++ [digitChar (n % 10)] := rfl

/-- Unfolding equation for `decRepr` that hides the fuel. -/
theorem decRepr_eq (n : Nat) :
    decRepr n = if n < 10 then [digitChar n] else decRepr (n / 10) ++ [digitChar (n % 10)] := by
  unfold decRepr
  rw [decReprAux_succ]
  by_cases hn : n < 10
  · simp [hn]
  · rw [if_neg hn, if_neg hn]
    have hd : n / 10 < n := Nat.div_lt_self (by omega) (by omega)
    rw [decReprAux_fuel_irrel n (n / 10) (n / 10 + 1) (by omega) (by omega)]

theorem decRepr_ne_nil (n : Nat) : decRepr n ≠ [] := by
  rw [decRepr_eq]
  by_cases hn : n < 10
  · simp [hn]
  · simp [hn]

theorem digitChar_isDigit : ∀ k, k < 10 → (digitChar k).isDigit = true := by decide

theorem decRepr_all_digits (n : Nat) : ∀ c ∈ decRepr n, c.isDigit = true := by
  induction n using Nat.strong_induction_on with
  | _ n ih =>
    rw [decRepr_eq]
    by_cases hn : n < 10
    · simp only [hn, if_true, List.mem_singleton]
      intro c hc; subst hc; exact digitChar_isDigit n hn
    · simp only [hn, if_false, List.mem_append, List.mem_singleton]
      intro c hc
      rcases hc with hc | hc
      · exact ih (n / 10) (Nat.div_lt_self (by omega) (by omega)) c hc
      · subst hc; exact digitChar_isDigit (n % 10) (Nat.mod_lt _ (by omega))

theorem digitChar_inj : ∀ a, a < 10 → ∀ b, b < 10 → digitChar a = digitChar b → a = b := by
  decide

theorem decRepr_length_pos (n : Nat) : 1 ≤ (decRepr n).length := by
  cases hdd : decRepr n with
  | nil => exact absurd hdd (decRepr_ne_nil n)
  | cons a l => simp

theorem decRepr_inj : ∀ (m n : Nat), decRepr m = decRepr n → m = n := by
  intro m
  induction m using Nat.strong_induction_on with
  | _ m ih =>
    intro n h
    rw [decRepr_eq m, decRepr_eq n] at h
    by_cases hm : m < 10 <;> by_cases hn : n < 10
    · rw [if_pos hm, if_pos hn] at h
      simp only [List.cons.injEq] at h
      exact digitChar_inj m hm n hn h.1
    · rw [if_pos hm, if_neg hn] at h
      have hl := congrArg List.length h
      rw [List.length_append] at hl
      simp only [List.length_singleton] at hl
      have := decRepr_length_pos (n / 10)
      omega
    · rw [if_neg hm, if_pos hn] at h
      have hl := congrArg List.length h
      rw [List.length_append] at hl
      simp only [List.length_singleton] at hl
      have := decRepr_length_pos (m / 10)
      omega
    · rw [if_neg hm, if_neg hn] at h
      have hsplit := List.append_inj' h (by simp)
      have hdiv : m / 10 = n / 10 :=
        ih (m / 10) (Nat.div_lt_self (by omega) (by omega)) (n / 10) hsplit.1
      have hmod : m % 10 = n % 10 := by
        have h2 := hsplit.2
        simp only [List.cons.injEq] at h2
        exact digitChar_inj (m % 10) (Nat.mod_lt _ (by omega)) (n % 10)
          (Nat.mod_lt _ (by omega)) h2.1
      omega

theorem findChar_eq_none {p : Char → Bool} :
    ∀ {l : List Char}, (∀ c ∈ l, p c = false) → findChar p l = none := by
  intro l
  induction l with
  | nil => intro _; rfl
  | cons c cs ih =>
    intro h
    simp only [findChar]
    rw [if_neg (by simp [h c (List.mem_cons_self c cs)]), ih]
    · rfl
    · intro x hx; exact h x (List.mem_cons_of_mem c hx)

theorem findChar_cons (p : Char → Bool) (c : Char) (cs : List Char) :
    findChar p (c :: cs) = if p c then some 0 else (findChar p cs).map (· + 1) := rfl

theorem findChar_append_first {p : Char → Bool} {c : Char} :
    ∀ (l₁ : List Char) (l₂ : List Char), (∀ x ∈ l₁, p x = false) → p c = true →
      findChar p (l₁ ++ c :: l₂) = some l₁.length := by
  intro l₁
  induction l₁ with
  | nil =>
    intro l₂ _ hc
    simp [findChar, hc]
  | cons a l ih =>
    intro l₂ h hc
    rw [List.cons_append, findChar_cons,
      if_neg (by simp [h a (List.mem_cons_self a l)]),
      ih l₂ (fun x hx => h x (List.mem_cons_of_mem a hx)) hc]
    simp

theorem head_dropWhile_false {p : Char → Bool} :
    ∀ (l : List Char) (c : Char), (List.dropWhile p l).head? = some c → p c = false := by
  intro l
  induction l with
  | nil => intro c h; simp [List.dropWhile] at h
  | cons a t ih =>
    intro c h
    rw [List.dropWhile_cons] at h
    by_cases ha : p a = true
    · rw [if_pos ha] at h; exact ih c h
    · rw [if_neg ha] at h
      simp only [List.head?_cons, Option.some.injEq] at h
      subst h
      simpa using ha

theorem rustTrim_cons_of_not_ws {c : Char} (t : List Char)
    (h : isRustWhitespace c = false) :
    ∃ t', rustTrim (c :: t) = c :: t' ∧ List.Sublist (c :: t') (c :: t) := by
  have hfront : List.dropWhile isRustWhitespace (c :: t) = c :: t := by
    rw [List.dropWhile_cons, if_neg (by simp [h])]
  have hsuf : List.dropWhile isRustWhitespace (c :: t).reverse <:+ (c :: t).reverse :=
    List.dropWhile_suffix _
  have hne : List.dropWhile isRustWhitespace (c :: t).reverse ≠ [] := by
    intro hnil
    rw [List.dropWhile_eq_nil_iff] at hnil
    have := hnil c (by simp)
    rw [h] at this
    exact Bool.false_ne_true this
  have hpre : (List.dropWhile isRustWhitespace (c :: t).reverse).reverse <+: (c :: t) := by
    rw [← List.reverse_suffix]
    rw [List.reverse_reverse]
    exact hsuf
  have hner : (List.dropWhile isRustWhitespace (c :: t).reverse).reverse ≠ [] := by
    simpa using hne
  obtain ⟨u, hu⟩ := hpre
  cases hx : (List.dropWhile isRustWhitespace (c :: t).reverse).reverse with
  | nil => exact absurd hx hner
  | cons x xs =>
    rw [hx] at hu
    have hxc : x = c := by
      have h2 := hu
      simp only [List.cons_append] at h2
      exact ((List.cons.injEq _ _ _ _).mp h2).1
    have hmain : rustTrim (c :: t) = x :: xs := by
      show ((List.dropWhile isRustWhitespace (c :: t)).reverse.dropWhile isRustWhitespace).reverse
        = x :: xs
      rw [hfront]
      exact hx
    rw [hxc] at hmain hu
    refine ⟨xs, hmain, ?_⟩
    rw [← hu]
    exact List.sublist_append_left _ _

theorem rustTrim_eq_self (l : List Char)
    (h1 : ∀ x, l.head? = some x → isRustWhitespace x = false)
    (h2 : ∀ x, l.getLast? = some x → isRustWhitespace x = false) :
    rustTrim l = l := by
  have hfront : List.dropWhile isRustWhitespace l = l := by
    cases l with
    | nil => rfl
    | cons c t => rw [List.dropWhile_cons, if_neg (by simp [h1 c rfl])]
  have hback : List.dropWhile isRustWhitespace l.reverse = l.reverse := by
    cases hr : l.reverse with
    | nil => rfl
    | cons x xs =>
      have hx : l.getLast? = some x := by
        rw [← List.head?_reverse, hr, List.head?_cons]
      rw [List.dropWhile_cons, if_neg (by simp [h2 x hx])]
  show ((List.dropWhile isRustWhitespace l).reverse.dropWhile isRustWhitespace).reverse = l
  rw [hfront, hback, List.reverse_reverse]

theorem rustTrim_idem (l : List Char) : rustTrim (rustTrim l) = rustTrim l := by
  cases hres : rustTrim l with
  | nil => rfl
  | cons y ys =>
    apply rustTrim_eq_self
    · intro x hx
      have hpre : (((List.dropWhile isRustWhitespace l).reverse.dropWhile
          isRustWhitespace).reverse) <+: (List.dropWhile isRustWhitespace l) := by
        rw [← List.reverse_suffix, List.reverse_reverse]
        exact List.dropWhile_suffix _
      have hres' : ((List.dropWhile isRustWhitespace l).reverse.dropWhile
          isRustWhitespace).reverse = y :: ys := hres
      rw [hres'] at hpre
      obtain ⟨u, hu⟩ := hpre
      simp only [List.head?_cons, Option.some.injEq] at hx
      subst hx
      apply head_dropWhile_false l
      rw [← hu]
      simp
    · intro x hx
      have hlast : (y :: ys).getLast? =
          ((List.dropWhile isRustWhitespace l).reverse.dropWhile isRustWhitespace).head? := by
        rw [← hres]
        show (((List.dropWhile isRustWhitespace l).reverse.dropWhile
          isRustWhitespace).reverse).getLast? = _
        rw [List.getLast?_reverse]
      rw [hx] at hlast
      exact head_dropWhile_false _ x hlast.symm

theorem decomposeTagsGo_ne_err :
    ∀ (f : Nat) (it : List Char) (tags : List (String × String)), it.length < f →
      decomposeTagsGo f it tags ≠ .err := by
  intro f
  induction f with
  | zero => intro it tags h; omega
  | succ f ih =>
    intro it tags h
    match it with
    | [] => simp [decomposeTagsGo]
    | c :: rest =>
      simp only [decomposeTagsGo]
      split
      · split
        · simp
        · apply ih
          simp only [List.length_drop, List.length_cons] at h ⊢
          omega
      · simp

theorem decomposeTagsGo_nil (f : Nat) (tags : List (String × String)) :
    decomposeTagsGo (f + 1) [] tags = .ok tags := rfl

/-- One scanner iteration on a cursor `tag ++ separator ++ remainder`: the
tag is cut at the first space or newline, its value spans `tagValueLen`
characters of the remainder, and scanning resumes after the value. -/
theorem decomposeTagsGo_tag_step (f : Nat) (t : List Char) (sep : Char) (rest : List Char)
    (tags : List (String × String))
    (ht : t.head? = some ':')
    (htc : ∀ ch ∈ t, (ch = ' ' || ch = '\n') = false)
    (hsep : (sep = ' ' || sep = '\n') = true) :
    decomposeTagsGo (f + 1) (t ++ sep :: rest) tags =
      decomposeTagsGo f (rest.drop (tagValueLen t rest))
        (insertTag tags (String.mk t) (String.mk (rustTrim (rest.take (tagValueLen t rest))))) := by
  cases t with
  | nil => simp at ht
  | cons c0 t2 =>
    have hc0 : c0 = ':' := by simpa using ht
    subst hc0
    have hfind : findChar (fun ch => ch = ' ' || ch = '\n') ((':' :: t2) ++ sep :: rest)
        = some (':' :: t2).length := findChar_append_first _ _ htc hsep
    have htake : ((':' :: t2) ++ sep :: rest).take (':' :: t2).length = ':' :: t2 :=
      List.take_left _ _
    have hdrop : ((':' :: t2) ++ sep :: rest).drop ((':' :: t2).length + 1) = rest := by
      have hsplit : (':' :: t2) ++ sep :: rest = ((':' :: t2) ++ [sep]) ++ rest := by simp
      have hlen : ((':' :: t2) ++ [sep]).length = (':' :: t2).length + 1 := by simp
      rw [hsplit, ← hlen]
      exact List.drop_left _ _
    rw [List.cons_append] at hfind htake hdrop
    show decomposeTagsGo (f + 1) (':' :: (t2 ++ sep :: rest)) tags = _
    simp only [decomposeTagsGo, if_true]
    rw [hfind]
    simp only [htake, hdrop]

/-- After a `:yul` tag the entire remaining text becomes the tag's value
and scanning finishes. -/
theorem decomposeTagsGo_yul (f : Nat) (sep : Char) (rest : List Char)
    (tags : List (String × String)) (hf : 1 ≤ f) (hsep : (sep = ' ' || sep = '\n') = true) :
    decomposeTagsGo (f + 1) ([':', 'y', 'u', 'l'] ++ sep :: rest) tags =
      .ok (insertTag tags ":yul" (String.mk (rustTrim rest))) := by
  rw [decomposeTagsGo_tag_step f [':', 'y', 'u', 'l'] sep rest tags rfl (by decide) hsep]
  have hv : tagValueLen [':', 'y', 'u', 'l'] rest = rest.length := by
    rw [tagValueLen, if_pos (by decide)]
  rw [hv, List.drop_length, List.take_length]
  cases f with
  | zero => omega
  | succ f' => exact decomposeTagsGo_nil f' _

/-- After a `:solidity` tag the entire remaining text becomes the tag's
value and scanning finishes. -/
theorem decomposeTagsGo_solidity (f : Nat) (sep : Char) (rest : List Char)
    (tags : List (String × String)) (hf : 1 ≤ f) (hsep : (sep = ' ' || sep = '\n') = true) :
    decomposeTagsGo (f + 1) ([':', 's', 'o', 'l', 'i', 'd', 'i', 't', 'y'] ++ sep :: rest) tags =
      .ok (insertTag tags ":solidity" (String.mk (rustTrim rest))) := by
  rw [decomposeTagsGo_tag_step f [':', 's', 'o', 'l', 'i', 'd', 'i', 't', 'y'] sep rest tags rfl
    (by decide) hsep]
  have hv : tagValueLen [':', 's', 'o', 'l', 'i', 'd', 'i', 't', 'y'] rest = rest.length := by
    rw [tagValueLen, if_pos (by decide)]
  rw [hv, List.drop_length, List.take_length]
  cases f with
  | zero => omega
  | succ f' => exact decomposeTagsGo_nil f' _

/-- After any tag other than `:yul` and `:solidity`, the value runs only up
to the next `:` (or the end of the string). -/
theorem decomposeTagsGo_other_tag (f : Nat) (t : List Char) (sep : Char) (rest : List Char)
    (tags : List (String × String))
    (ht : t.head? = some ':')
    (htc : ∀ ch ∈ t, (ch = ' ' || ch = '\n') = false)
    (hsep : (sep = ' ' || sep = '\n') = true)
    (hyul : String.mk t ≠ ":yul") (hsol : String.mk t ≠ ":solidity") :
    decomposeTagsGo (f + 1) (t ++ sep :: rest) tags =
      decomposeTagsGo f (rest.drop ((findChar (fun ch => ch = ':') rest).getD rest.length))
        (insertTag tags (String.mk t)
          (String.mk (rustTrim (rest.take
            ((findChar (fun ch => ch = ':') rest).getD rest.length))))) := by
  rw [decomposeTagsGo_tag_step f t sep rest tags ht htc hsep]
  have hv : tagValueLen t rest = (findChar (fun ch => ch = ':') rest).getD rest.length := by
    rw [tagValueLen, if_neg (by simp [hyul, hsol])]
  rw [hv]

/-- Whitespace-only input: the tag map holds exactly the empty tag bound to
the empty value. -/
theorem decompose_tags_empty (s : String) (h : rustTrim s.data = []) :
    decompose_tags s = .ok [("", "")] := by
  show (if rustTrim s.data = [] then _ else _) = _
  rw [if_pos h]
  rfl

/-- Input whose trimmed text does not start with `:`: the whole trimmed
remainder becomes the value of the empty tag and scanning stops. -/
theorem decompose_tags_untagged (s : String) (c : Char) (t : List Char)
    (h : rustTrim s.data = c :: t) (hc : c ≠ ':') :
    decompose_tags s = .ok [("", String.mk (rustTrim s.data))] := by
  show (if rustTrim s.data = [] then _ else _) = _
  rw [if_neg (by simp [h])]
  rw [h]
  simp only [decomposeTagsGo]
  rw [if_neg hc]
  have htr : rustTrim (c :: t) = c :: t := by
    rw [← h]
    exact rustTrim_idem s.data
  rw [htr, ← h]
  rfl

/-- Input starting with `:` but holding no space and no newline: the
scanner cannot find the end of the tag and panics. -/
theorem decompose_tags_no_end_tag (s : String)
    (hhead : s.data.head? = some ':')
    (hbody : ∀ c ∈ s.data, (c = ' ' || c = '\n') = false) :
    decompose_tags s = .panicked := by
  cases hd : s.data with
  | nil => rw [hd] at hhead; simp at hhead
  | cons c0 t0 =>
    have hc0 : c0 = ':' := by rw [hd] at hhead; simpa using hhead
    subst hc0
    have hnw : isRustWhitespace ':' = false := by decide
    obtain ⟨t', ht', hsub⟩ := rustTrim_cons_of_not_ws t0 hnw
    have htrim : rustTrim s.data = ':' :: t' := by rw [hd]; exact ht'
    show (if rustTrim s.data = [] then _ else _) = _
    rw [if_neg (by simp [htrim])]
    rw [htrim]
    simp only [decomposeTagsGo, if_true]
    have hfind : findChar (fun ch => ch = ' ' || ch = '\n') (':' :: t') = none := by
      apply findChar_eq_none
      intro x hx
      have hxs : x ∈ s.data := by
        rw [hd]
        exact List.Sublist.mem hx hsub
      exact hbody x hxs
    rw [hfind]

theorem digit_prefix_cancel :
    ∀ (d₁ d₂ r₁ r₂ : List Char),
      (∀ c ∈ d₁, c.isDigit = true) → (∀ c ∈ d₂, c.isDigit = true) →
      (∀ c, r₁.head? = some c → c.isDigit = false) →
      (∀ c, r₂.head? = some c → c.isDigit = false) →
      d₁ ++ r₁ = d₂ ++ r₂ → d₁ = d₂ ∧ r₁ = r₂ := by
  intro d₁
  induction d₁ with
  | nil =>
    intro d₂ r₁ r₂ _ hd₂ hr₁ _ h
    cases d₂ with
    | nil => exact ⟨rfl, h⟩
    | cons b bs =>
      exfalso
      simp only [List.nil_append, List.cons_append] at h
      have hb : r₁.head? = some b := by rw [h]; rfl
      have hf := hr₁ b hb
      have ht := hd₂ b (List.mem_cons_self b bs)
      rw [hf] at ht
      exact Bool.false_ne_true ht
  | cons a as ih =>
    intro d₂ r₁ r₂ hd₁ hd₂ hr₁ hr₂ h
    cases d₂ with
    | nil =>
      exfalso
      simp only [List.nil_append, List.cons_append] at h
      have hb : r₂.head? = some a := by rw [← h]; rfl
      have hf := hr₂ a hb
      have ht := hd₁ a (List.mem_cons_self a as)
      rw [hf] at ht
      exact Bool.false_ne_true ht
    | cons b bs =>
      simp only [List.cons_append, List.cons.injEq] at h
      obtain ⟨hab, htail⟩ := h
      subst hab
      obtain ⟨h1, h2⟩ := ih bs r₁ r₂ (fun c hc => hd₁ c (List.mem_cons_of_mem _ hc))
        (fun c hc => hd₂ c (List.mem_cons_of_mem _ hc)) hr₁ hr₂ htail
      exact ⟨by rw [h1], h2⟩

theorem suffix_append_head_nondigit (cd : Calldata) (t : List Char) :
    ∀ c, (dataLabelSuffixChars cd ++ '_' :: t).head? = some c → c.isDigit = false := by
  intro c h
  cases hlab : cd.label with
  | none =>
    rw [dataLabelSuffixChars, hlab] at h
    simp only [List.nil_append, List.head?_cons, Option.some.injEq] at h
    subst h
    decide
  | some l =>
    rw [dataLabelSuffixChars, hlab] at h
    simp only [List.cons_append, List.head?_cons, Option.some.injEq] at h
    subst h
    decide

theorem testId_data (nm : String) (i : Nat) (cd : Calldata) (j k : Nat) :
    (testId nm i cd j k).data =
      nm.data ++ ('_' :: 'd' :: (decRepr i ++ (dataLabelSuffixChars cd ++
        ('_' :: 'g' :: (decRepr j ++ ('_' :: 'v' :: decRepr k)))))) := by
  show nm.data ++ (['_', 'd'] ++ decRepr i) ++ dataLabelSuffixChars cd ++
      (['_', 'g'] ++ decRepr j) ++ (['_', 'v'] ++ decRepr k) = _
  simp [List.append_assoc]

theorem dataLabelSuffixChars_inj (cd₁ cd₂ : Calldata)
    (h : dataLabelSuffixChars cd₁ = dataLabelSuffixChars cd₂) : cd₁.label = cd₂.label := by
  cases h₁ : cd₁.label with
  | none =>
    cases h₂ : cd₂.label with
    | none => rfl
    | some l₂ =>
      rw [dataLabelSuffixChars, h₁, dataLabelSuffixChars, h₂] at h
      simp at h
  | some l₁ =>
    cases h₂ : cd₂.label with
    | none =>
      rw [dataLabelSuffixChars, h₁, dataLabelSuffixChars, h₂] at h
      simp at h
    | some l₂ =>
      rw [dataLabelSuffixChars, h₁, dataLabelSuffixChars, h₂] at h
      simp only [List.cons.injEq, true_and] at h
      have := (List.append_inj' h (by simp)).1
      rw [String.ext this]

theorem testId_inj (nm : String) (i₁ j₁ k₁ : Nat) (cd₁ : Calldata) (i₂ j₂ k₂ : Nat)
    (cd₂ : Calldata) (h : testId nm i₁ cd₁ j₁ k₁ = testId nm i₂ cd₂ j₂ k₂) :
    i₁ = i₂ ∧ j₁ = j₂ ∧ k₁ = k₂ ∧ dataLabelSuffixChars cd₁ = dataLabelSuffixChars cd₂ := by
  have hdata := congrArg String.data h
  rw [testId_data, testId_data] at hdata
  have h1 := List.append_cancel_left hdata
  simp only [List.cons.injEq, true_and] at h1
  have h2 := digit_prefix_cancel (decRepr i₁) (decRepr i₂) _ _
    (decRepr_all_digits i₁) (decRepr_all_digits i₂)
    (suffix_append_head_nondigit cd₁ _) (suffix_append_head_nondigit cd₂ _) h1
  have hi : i₁ = i₂ := decRepr_inj _ _ h2.1
  have h3 := h2.2
  have hrev : (decRepr k₁).reverse ++ ('v' :: '_' :: ((decRepr j₁).reverse ++
      ('g' :: '_' :: (dataLabelSuffixChars cd₁).reverse))) =
      (decRepr k₂).reverse ++ ('v' :: '_' :: ((decRepr j₂).reverse ++
      ('g' :: '_' :: (dataLabelSuffixChars cd₂).reverse))) := by
    have e2 := congrArg List.reverse h3
    simpa [List.reverse_append, List.append_assoc] using e2
  have h4 := digit_prefix_cancel ((decRepr k₁).reverse) ((decRepr k₂).reverse) _ _
    (fun c hc => decRepr_all_digits k₁ c (List.mem_reverse.mp hc))
    (fun c hc => decRepr_all_digits k₂ c (List.mem_reverse.mp hc))
    (by intro c hc; simp only [List.head?_cons, Option.some.injEq] at hc; subst hc; decide)
    (by intro c hc; simp only [List.head?_cons, Option.some.injEq] at hc; subst hc; decide)
    hrev
  have hk : k₁ = k₂ := decRepr_inj _ _ (by
    have := congrArg List.reverse h4.1
    simpa using this)
  have h5 := h4.2
  simp only [List.cons.injEq, true_and] at h5
  have h6 := digit_prefix_cancel ((decRepr j₁).reverse) ((decRepr j₂).reverse) _ _
    (fun c hc => decRepr_all_digits j₁ c (List.mem_reverse.mp hc))
    (fun c hc => decRepr_all_digits j₂ c (List.mem_reverse.mp hc))
    (by intro c hc; simp only [List.head?_cons, Option.some.injEq] at hc; subst hc; decide)
    (by intro c hc; simp only [List.head?_cons, Option.some.injEq] at hc; subst hc; decide)
    h5
  have hj : j₁ = j₂ := decRepr_inj _ _ (by
    have := congrArg List.reverse h6.1
    simpa using this)
  have h7 := h6.2
  simp only [List.cons.injEq, true_and] at h7
  have hsuf : dataLabelSuffixChars cd₁ = dataLabelSuffixChars cd₂ := by
    have := congrArg List.reverse h7
    simpa using this
  exact ⟨hi, hj, hk, hsuf⟩

theorem nodup_filterMap_on {α β : Type} (l : List α) (F : α → Option β)
    (hinj : ∀ a ∈ l, ∀ a' ∈ l, ∀ b, F a = some b → F a' = some b → a = a')
    (hnd : l.Nodup) : (l.filterMap F).Nodup := by
  induction l with
  | nil => simp
  | cons a t ih =>
    rw [List.filterMap_cons]
    rw [List.nodup_cons] at hnd
    have ih' := ih (fun x hx x' hx' b hb hb' =>
      hinj x (List.mem_cons_of_mem a hx) x' (List.mem_cons_of_mem a hx') b hb hb') hnd.2
    cases hfa : F a with
    | none => exact ih'
    | some b =>
      rw [List.nodup_cons]
      refine ⟨?_, ih'⟩
      intro hmem
      obtain ⟨a', ha', hfa'⟩ := List.mem_filterMap.mp hmem
      have : a = a' := hinj a (List.mem_cons_self a t) a' (List.mem_cons_of_mem a ha') b hfa hfa'
      subst this
      exact hnd.1 ha'

theorem find?_append_first {α : Type} (p : α → Bool) (l₁ : List α) (e : α) (l₂ : List α)
    (h1 : ∀ x ∈ l₁, p x = false) (he : p e = true) :
    List.find? p (l₁ ++ e :: l₂) = some e := by
  induction l₁ with
  | nil => simp [List.find?_cons, he]
  | cons a t ih =>
    rw [List.cons_append, List.find?_cons, h1 a (List.mem_cons_self a t)]
    exact ih (fun x hx => h1 x (List.mem_cons_of_mem a hx))

theorem filter_filterMap_unique {α β : Type} (l : List α) (F : α → Option β) (p : β → Bool)
    (a₀ : α) (hnd : l.Nodup) (hmem : a₀ ∈ l)
    (hiff : ∀ a ∈ l, ∀ b, F a = some b → (p b = true ↔ a = a₀)) :
    (l.filterMap F).filter p = (F a₀).toList := by
  induction l with
  | nil => simp at hmem
  | cons a t ih =>
    rw [List.nodup_cons] at hnd
    rw [List.filterMap_cons]
    by_cases ha : a = a₀
    · subst ha
      cases hfa : F a with
      | none =>
        simp only [Option.toList]
        have : ∀ x ∈ t, ∀ b, F x = some b → p b = false := by
          intro x hx b hb
          have hx0 : x ≠ a := fun hh => hnd.1 (hh ▸ hx)
          have := (hiff x (List.mem_cons_of_mem a hx) b hb)
          rcases hpb : p b with _ | _
          · rfl
          · exact absurd (this.mp hpb) hx0
        rw [List.filter_eq_nil_iff.mpr ?_]
        intro b hb
        obtain ⟨x, hx, hfx⟩ := List.mem_filterMap.mp hb
        simp [this x hx b hfx]
      | some b =>
        rw [List.filter_cons,
          if_pos ((hiff a (List.mem_cons_self a t) b hfa).mpr rfl)]
        have : List.filter p (List.filterMap F t) = [] := by
          rw [List.filter_eq_nil_iff]
          intro b' hb'
          obtain ⟨x, hx, hfx⟩ := List.mem_filterMap.mp hb'
          have hx0 : x ≠ a := fun hh => hnd.1 (hh ▸ hx)
          have hiffx := hiff x (List.mem_cons_of_mem a hx) b' hfx
          rcases hpb : p b' with _ | _
          · simp
          · exact absurd (hiffx.mp hpb) hx0
        rw [this]
        simp [Option.toList]
    · have hmem' : a₀ ∈ t := by
        rcases List.mem_cons.mp hmem with hh | hh
        · exact absurd hh.symm ha
        · exact hh
      have ih' := ih hnd.2 hmem'
        (fun x hx b hb => hiff x (List.mem_cons_of_mem a hx) b hb)
      cases hfa : F a with
      | none => exact ih'
      | some b =>
        have hpb : p b = false := by
          rcases hq : p b with _ | _
          · rfl
          · exact absurd ((hiff a (List.mem_cons_self a t) b hfa).mp hq) ha
        rw [List.filter_cons, if_neg (by simp [hpb])]
        exact ih'

theorem length_filterMap_of_isSome {α β : Type} (l : List α) (F : α → Option β)
    (h : ∀ a ∈ l, (F a).isSome = true) : (l.filterMap F).length = l.length := by
  induction l with
  | nil => rfl
  | cons a t ih =>
    rw [List.filterMap_cons]
    cases hfa : F a with
    | none =>
      have := h a (List.mem_cons_self a t)
      rw [hfa] at this
      simp at this
    | some b =>
      simp only [List.length_cons]
      rw [ih (fun x hx => h x (List.mem_cons_of_mem a hx))]

theorem enum_nodup {α : Type} (l : List α) : l.enum.Nodup :=
  List.Nodup.of_map Prod.fst (by rw [List.enum_map_fst]; exact List.nodup_range _)

theorem enum_get {α : Type} {l : List α} {i : Nat} {x : α} (h : (i, x) ∈ l.enum) :
    l[i]? = some x := by
  obtain ⟨hl, hx⟩ := List.mem_enum h
  exact List.getElem?_eq_some.mpr ⟨hl, hx.symm⟩

theorem tripleList_nodup (f : Fixture) : (tripleList f).Nodup :=
  (enum_nodup _).product ((enum_nodup _).product (enum_nodup _))

theorem mem_tripleList {f : Fixture} {i j k : Nat} {cd : Calldata} {g v : Nat}
    (h : ((i, cd), (j, g), (k, v)) ∈ tripleList f) :
    f.data_s[i]? = some cd ∧ f.gas_limit_s[j]? = some g ∧ f.value_s[k]? = some v := by
  obtain ⟨h1, h23⟩ := List.mem_product.mp h
  obtain ⟨h2, h3⟩ := List.mem_product.mp h23
  exact ⟨enum_get h1, enum_get h2, enum_get h3⟩

theorem tripleList_length (f : Fixture) :
    (tripleList f).length =
      f.data_s.length * (f.gas_limit_s.length * f.value_s.length) := by
  simp [tripleList, List.length_product, List.enum_length]

theorem emitTriple_eq_none (path : String) (f : Fixture) (expects : List Expectation)
    (idx_data : Nat) (cd : Calldata) (idx_gas gas_limit idx_value value : Nat)
    (h : ∀ e ∈ expects, admitsTriple e cd idx_data idx_gas idx_value = false) :
    emitTriple path f expects idx_data cd idx_gas gas_limit idx_value value = none := by
  rw [emitTriple, List.find?_eq_none.mpr (fun e he => by simp [h e he])]
  rfl

theorem emitTriple_first (path : String) (f : Fixture) (expects : List Expectation)
    (idx_data : Nat) (cd : Calldata) (idx_gas gas_limit idx_value value : Nat)
    (l₁ : List Expectation) (e : Expectation) (l₂ : List Expectation)
    (hsplit : expects = l₁ ++ e :: l₂)
    (hnone : ∀ e' ∈ l₁, admitsTriple e' cd idx_data idx_gas idx_value = false)
    (hadm : admitsTriple e cd idx_data idx_gas idx_value = true) :
    emitTriple path f expects idx_data cd idx_gas gas_limit idx_value value =
      some (mkStateTest path f idx_data cd idx_gas gas_limit idx_value value e) := by
  rw [emitTriple, hsplit, find?_append_first _ l₁ e l₂ hnone hadm]
  rfl

theorem emitTriple_some_elim {path : String} {f : Fixture} {expects : List Expectation}
    {idx_data : Nat} {cd : Calldata} {idx_gas gas_limit idx_value value : Nat} {st : StateTest}
    (h : emitTriple path f expects idx_data cd idx_gas gas_limit idx_value value = some st) :
    ∃ e, List.find? (fun e => admitsTriple e cd idx_data idx_gas idx_value) expects = some e ∧
      st = mkStateTest path f idx_data cd idx_gas gas_limit idx_value value e := by
  rw [emitTriple] at h
  obtain ⟨e, he, hmk⟩ := Option.map_eq_some'.mp h
  exact ⟨e, he, hmk.symm⟩

theorem mkStateTest_id (path : String) (f : Fixture) (idx_data : Nat) (cd : Calldata)
    (idx_gas gas_limit idx_value value : Nat) (e : Expectation) :
    (mkStateTest path f idx_data cd idx_gas gas_limit idx_value value e).id =
      testId f.test_name idx_data cd idx_gas idx_value := rfl

theorem generateTests_ids_nodup (path : String) (f : Fixture) (expects : List Expectation) :
    ((generateTests path f expects).map (fun st => st.id)).Nodup := by
  rw [generateTests, List.map_filterMap]
  apply nodup_filterMap_on _ _ ?_ (tripleList_nodup f)
  intro t ht t' ht' s hs hs'
  obtain ⟨⟨i, cd⟩, ⟨j, g⟩, ⟨k, v⟩⟩ := t
  obtain ⟨⟨i', cd'⟩, ⟨j', g'⟩, ⟨k', v'⟩⟩ := t'
  obtain ⟨st, hst, hid⟩ := Option.map_eq_some'.mp hs
  obtain ⟨st', hst', hid'⟩ := Option.map_eq_some'.mp hs'
  obtain ⟨e, _, hmk⟩ := emitTriple_some_elim hst
  obtain ⟨e', _, hmk'⟩ := emitTriple_some_elim hst'
  have hids : testId f.test_name i cd j k = testId f.test_name i' cd' j' k' := by
    rw [← mkStateTest_id path f i cd j g k v e, ← hmk, hid,
      ← hid', hmk', mkStateTest_id]
  obtain ⟨hi, hj, hk, _⟩ := testId_inj _ _ _ _ _ _ _ _ _ hids
  subst hi; subst hj; subst hk
  obtain ⟨hd, hg, hv⟩ := mem_tripleList ht
  obtain ⟨hd', hg', hv'⟩ := mem_tripleList ht'
  rw [hd] at hd'
  rw [hg] at hg'
  rw [hv] at hv'
  simp only [Option.some.injEq] at hd' hg' hv'
  rw [hd', hg', hv']

theorem contains_index_of_any {r : Refs} (h : Ref.Any ∈ r.val) (i : Nat) :
    r.contains_index i = true := by
  rw [Refs.contains_index, List.any_eq_true]
  exact ⟨Ref.Any, h, rfl⟩

theorem contains_label_of_any {r : Refs} (h : Ref.Any ∈ r.val) (l : String) :
    r.contains_label l = true := by
  rw [Refs.contains_label, List.any_eq_true]
  exact ⟨Ref.Any, h, rfl⟩

theorem admitsTriple_of_any (e : Expectation) (cd : Calldata) (i j k : Nat)
    (hd : Ref.Any ∈ e.data_refs.val) (hg : Ref.Any ∈ e.gas_refs.val)
    (hv : Ref.Any ∈ e.value_refs.val) :
    admitsTriple e cd i j k = true := by
  rw [admitsTriple]
  have h1 : (match cd.label with
      | some label => Refs.contains_label e.data_refs label
      | none => Refs.contains_index e.data_refs i) = true := by
    cases cd.label with
    | some label => exact contains_label_of_any hd label
    | none => exact contains_index_of_any hd i
  rw [h1, contains_index_of_any hg j, contains_index_of_any hv k]
  rfl

/-- Claim C1 (amended).  Gas price resolution: if a direct `gasPrice`
field parses successfully the resolved gas price equals that value;
otherwise both `maxFeePerGas` and `maxPriorityFeePerGas` are required and
(when their sum with the base fee fits in 256 bits) the resolved price is
`min(maxFeePerGas, maxPriorityFeePerGas + current_base_fee)`; when either
fee-market field is missing the loader panics (aborts the process via
`Option::unwrap`) instead of returning a `MissingFeeFields` error to the
caller. -/
theorem c1_gas_price_resolution (gp mf mp base : Nat) (mfo mpo : Option Nat) :
    resolve_gas_price (some gp) mfo mpo base = .ok gp
    ∧ (mp + base < 2 ^ 256 →
        resolve_gas_price none (some mf) (some mp) base = .ok (min mf (mp + base)))
    ∧ resolve_gas_price none none mpo base = .panicked
    ∧ resolve_gas_price none (some mf) none base = .panicked := by
  refine ⟨rfl, ?_, rfl, rfl⟩
  intro h
  rw [resolve_gas_price]
  rw [if_pos h]

/-- Claim C1, witness for the amended theorem at concrete inputs. -/
theorem c1_gas_price_resolution_witness :
    resolve_gas_price (some 7) none none 5 = .ok 7
    ∧ resolve_gas_price none (some 100) (some 2) 5 = .ok (min 100 (2 + 5))
    ∧ resolve_gas_price none none none 5 = .panicked :=
  ⟨(c1_gas_price_resolution 7 100 2 5 none none).1,
   (c1_gas_price_resolution 7 100 2 5 none none).2.1 (by decide),
   (c1_gas_price_resolution 7 100 2 5 none none).2.2.1⟩

/-- Claim C1, counterexample to the claim as stated: with no `gasPrice`
and no fee-market fields the resolution panics — it does not produce a
recoverable `MissingFeeFields` error surfaced to the caller. -/
theorem c1_counterexample :
    resolve_gas_price none none none 0 = Res.panicked
    ∧ (Res.panicked : Res Nat) ≠ Res.err := by
  exact ⟨rfl, by decide⟩

/-- Claim C4.  Data selectors are consulted by label exactly when the
variant is labeled and by index exactly when it is unlabeled: a labeled
variant is admitted iff its label is admitted (a matching numeric index
alone does not admit it — an index selector never matches a label), an
unlabeled variant is admitted iff its index is admitted (a label selector
never matches an index), and the wildcard admits both. -/
theorem c4_label_index_asymmetry (e : Expectation) (cd : Calldata) (i j k : Nat) (l : String) :
    (cd.label = some l →
      admitsTriple e cd i j k =
        (e.data_refs.contains_label l && e.gas_refs.contains_index j &&
          e.value_refs.contains_index k))
    ∧ (cd.label = none →
      admitsTriple e cd i j k =
        (e.data_refs.contains_index i && e.gas_refs.contains_index j &&
          e.value_refs.contains_index k))
    ∧ (Refs.mk [Ref.Index i]).contains_label l = false
    ∧ (Refs.mk [Ref.Label l]).contains_index i = false
    ∧ (Refs.mk [Ref.Any]).contains_label l = true
    ∧ (Refs.mk [Ref.Any]).contains_index i = true := by
  refine ⟨?_, ?_, ?_, ?_, ?_, ?_⟩
  · intro h
    rw [admitsTriple, h]
  · intro h
    rw [admitsTriple, h]
  · simp [Refs.contains_label]
  · simp [Refs.contains_index]
  · simp [Refs.contains_label]
  · simp [Refs.contains_index]

/-- Claim C4, witness at concrete inputs: the labeled variant `cdLabeled`
(label `data1`, numeric index 0) against an expectation whose data
selector is only the index 0, and the unlabeled variant `cdPlain` against
an expectation whose data selector is only the label `data1`. -/
theorem c4_label_index_asymmetry_witness :
    admitsTriple (Expectation.mk false (Refs.mk [Ref.Index 0]) wildRefs wildRefs []) cdLabeled
        0 0 0 =
      ((Refs.mk [Ref.Index 0]).contains_label "data1" && wildRefs.contains_index 0 &&
        wildRefs.contains_index 0)
    ∧ admitsTriple (Expectation.mk false (Refs.mk [Ref.Label "data1"]) wildRefs wildRefs [])
        cdPlain 0 0 0 =
      ((Refs.mk [Ref.Label "data1"]).contains_index 0 && wildRefs.contains_index 0 &&
        wildRefs.contains_index 0) :=
  ⟨(c4_label_index_asymmetry (Expectation.mk false (Refs.mk [Ref.Index 0]) wildRefs wildRefs [])
      cdLabeled 0 0 0 "data1").1 rfl,
   (c4_label_index_asymmetry (Expectation.mk false (Refs.mk [Ref.Label "data1"]) wildRefs
      wildRefs []) cdPlain 0 0 0 "data1").2.1 rfl⟩

/-- Claim C5.  Parsing the range string `"2-4"` yields the same selector
set as the explicit list `[2, 3, 4]` (hence the same admitted indices and
labels), and parsing the integer `-1` yields the same selector set as an
absent field — the wildcard set, which admits every index and every
label. -/
theorem c5_selector_equivalences :
    parse_refs (.str "2-4") = .ok (Refs.mk [Ref.Index 2, Ref.Index 3, Ref.Index 4])
    ∧ parse_refs (.arr [.int 2, .int 3, .int 4]) =
        .ok (Refs.mk [Ref.Index 2, Ref.Index 3, Ref.Index 4])
    ∧ parse_refs (.int (-1)) = .ok (Refs.mk [Ref.Any])
    ∧ parse_refs .badvalue = .ok (Refs.mk [Ref.Any])
    ∧ (∀ i : Nat, (Refs.mk [Ref.Index 2, Ref.Index 3, Ref.Index 4]).contains_index i = true ↔
        (i = 2 ∨ i = 3 ∨ i = 4))
    ∧ (∀ l : String,
        (Refs.mk [Ref.Index 2, Ref.Index 3, Ref.Index 4]).contains_label l = false)
    ∧ (∀ i : Nat, (Refs.mk [Ref.Any]).contains_index i = true)
    ∧ (∀ l : String, (Refs.mk [Ref.Any]).contains_label l = true) := by
  refine ⟨by decide, by decide, by decide, by decide, ?_, ?_, ?_, ?_⟩
  · intro i
    rw [Refs.contains_index]
    simp only [List.any_cons, List.any_nil, Bool.or_false, Bool.or_eq_true, beq_iff_eq]
    omega
  · intro l
    simp [Refs.contains_label]
  · intro i
    simp [Refs.contains_index]
  · intro l
    simp [Refs.contains_label]

/-- Claim C6.  The integer literal `10` as an account key: without an
expected-address set (pre-state) it parses to the address of value
`0x10 = 16` (decimal digits read as hex digits, zero-padded to 40);
with an expected-address set (result) it parses to the address `0x0a = 10`
whenever that compact-hex address is in the set, and falls back to the
`0x10` form otherwise. -/
theorem c6_address_disambiguation :
    parse_address_int 10 none = .ok 16
    ∧ (∀ exp : List Nat, 10 ∈ exp → parse_address_int 10 (some exp) = .ok 10)
    ∧ (∀ exp : List Nat, 10 ∉ exp → parse_address_int 10 (some exp) = .ok 16) := by
  have hc : i64AsUsize 10 = 10 := by decide
  refine ⟨by decide, ?_, ?_⟩
  · intro exp h
    rw [parse_address_int, hc, if_pos h]
  · intro exp h
    rw [parse_address_int, hc, if_neg h]
    decide

/-- Claim C6, witness: sets containing and not containing the compact
form. -/
theorem c6_address_disambiguation_witness :
    parse_address_int 10 (some [10, 99]) = .ok 10
    ∧ parse_address_int 10 (some [99]) = .ok 16 :=
  ⟨c6_address_disambiguation.2.1 [10, 99] (by decide),
   c6_address_disambiguation.2.2 [99] (by decide)⟩

/-- Claim C10.  `decompose_tags` is not total: every input that starts
with `:` but contains no space and no newline panics ("unable to find end
tag") instead of returning a mapping or an error. -/
theorem c10_missing_end_tag_panics (s : String) (hhead : s.data.head? = some ':')
    (hbody : ∀ c ∈ s.data, (c = ' ' || c = '\n') = false) :
    decompose_tags s = .panicked :=
  decompose_tags_no_end_tag s hhead hbody

/-- Claim C10, witness: the bare string `:raw` panics. -/
theorem c10_missing_end_tag_panics_witness : decompose_tags (":raw") = .panicked :=
  c10_missing_end_tag_panics (":raw") (by decide) (by decide)

/-- Claim C9 (amended).  The tag decomposer: a whitespace-only input
yields exactly one entry mapping the empty tag to the empty value; an
input whose *trimmed* text does not start with `:` yields the whole
trimmed remainder as the value of the empty tag; after a `:yul` or
`:solidity` tag the entire remaining text becomes that tag's value, while
after any other tag the value runs only up to the next `:` or the end of
the string. -/
theorem c9_decompose_tags_spec :
    (∀ s : String, rustTrim s.data = [] → decompose_tags s = .ok [("", "")])
    ∧ (∀ (s : String) (c : Char) (t : List Char), rustTrim s.data = c :: t → c ≠ ':' →
        decompose_tags s = .ok [("", String.mk (rustTrim s.data))])
    ∧ (∀ (f : Nat) (sep : Char) (rest : List Char) (tags : List (String × String)),
        1 ≤ f → (sep = ' ' || sep = '\n') = true →
        decomposeTagsGo (f + 1) ([':', 'y', 'u', 'l'] ++ sep :: rest) tags =
          .ok (insertTag tags ":yul" (String.mk (rustTrim rest)))
        ∧ decomposeTagsGo (f + 1) ([':', 's', 'o', 'l', 'i', 'd', 'i', 't', 'y'] ++ sep :: rest)
            tags = .ok (insertTag tags ":solidity" (String.mk (rustTrim rest))))
    ∧ (∀ (f : Nat) (t : List Char) (sep : Char) (rest : List Char)
          (tags : List (String × String)),
        t.head? = some ':' → (∀ ch ∈ t, (ch = ' ' || ch = '\n') = false) →
        (sep = ' ' || sep = '\n') = true →
        String.mk t ≠ ":yul" → String.mk t ≠ ":solidity" →
        decomposeTagsGo (f + 1) (t ++ sep :: rest) tags =
          decomposeTagsGo f (rest.drop ((findChar (fun ch => ch = ':') rest).getD rest.length))
            (insertTag tags (String.mk t)
              (String.mk (rustTrim (rest.take
                ((findChar (fun ch => ch = ':') rest).getD rest.length)))))) := by
  refine ⟨decompose_tags_empty, decompose_tags_untagged, ?_, decomposeTagsGo_other_tag⟩
  intro f sep rest tags hf hsep
  exact ⟨decomposeTagsGo_yul f sep rest tags hf hsep,
    decomposeTagsGo_solidity f sep rest tags hf hsep⟩

/-- Claim C9, witness: concrete applications of all four parts. -/
theorem c9_decompose_tags_spec_witness :
    decompose_tags ("  ") = .ok [("", "")]
    ∧ decompose_tags ("x :y") = .ok [("", String.mk (rustTrim ("x :y").data))]
    ∧ decomposeTagsGo 2 ([':', 'y', 'u', 'l'] ++ ' ' :: ('a' :: [':', 'b'])) [] =
        .ok (insertTag [] ":yul" (String.mk (rustTrim ('a' :: [':', 'b']))))
    ∧ decomposeTagsGo 2 ([':', 'r', 'a', 'w'] ++ ' ' :: ('a' :: [':', 'b'])) [] =
        decomposeTagsGo 1
          (('a' :: [':', 'b']).drop
            ((findChar (fun ch => ch = ':') ('a' :: [':', 'b'])).getD ('a' :: [':', 'b']).length))
          (insertTag [] (String.mk [':', 'r', 'a', 'w'])
            (String.mk (rustTrim (('a' :: [':', 'b']).take
              ((findChar (fun ch => ch = ':') ('a' :: [':', 'b'])).getD
                ('a' :: [':', 'b']).length))))) :=
  ⟨c9_decompose_tags_spec.1 ("  ") (by decide),
   c9_decompose_tags_spec.2.1 ("x :y") 'x' [' ', ':', 'y'] (by decide) (by decide),
   (c9_decompose_tags_spec.2.2.1 1 ' ' ('a' :: [':', 'b']) [] (by decide) (by decide)).1,
   c9_decompose_tags_spec.2.2.2 1 [':', 'r', 'a', 'w'] ' ' ('a' :: [':', 'b']) []
     (by decide) (by decide) (by decide) (by decide) (by decide)⟩

/-- Claim C9, counterexample to the claim as stated: the input `" :a b"`
does not start with `:` (its first character is a space), yet the
decomposer does not map the empty tag to the whole trimmed remainder — it
trims first and then parses the `:a` tag, producing a map with no
empty-tag entry at all. -/
theorem c9_counterexample :
    (" :a b" : String).data.head? = some ' '
    ∧ decompose_tags (" :a b") = .ok [(":a", "b")]
    ∧ lookupTag [(":a", "b")] "" = none := by
  decide

theorem get?_mem_enum {α : Type} {l : List α} {i : Nat} {x : α} (h : l[i]? = some x) :
    (i, x) ∈ l.enum := by
  obtain ⟨hl, hx⟩ := List.getElem?_eq_some.mp h
  have hb : i < l.enum.length := by simpa [List.enum_length] using hl
  have hm := List.getElem_mem hb
  rw [List.getElem_enum] at hm
  rw [hx] at hm
  exact hm

/-- Claim C2.  Per `(data, gas, value)` triple: when no retained
expectation admits the triple, it contributes no test; when the retained
expectation list splits as `l₁ ++ e :: l₂` with nothing in `l₁` admitting
the triple and `e` admitting it, the triple contributes exactly the one
test bound to `e` (so the first admitting expectation in document order
wins, later admitting expectations are ignored, and at most one test is
emitted per triple). -/
theorem c2_first_match_per_triple (path : String) (f : Fixture) (expects : List Expectation)
    (i j k : Nat) (cd : Calldata) (g v : Nat)
    (hd : f.data_s[i]? = some cd) (hg : f.gas_limit_s[j]? = some g)
    (hv : f.value_s[k]? = some v) :
    ((∀ e ∈ expects, admitsTriple e cd i j k = false) →
      (generateTests path f expects).filter
        (fun st => st.id == testId f.test_name i cd j k) = [])
    ∧ (∀ (l₁ : List Expectation) (e : Expectation) (l₂ : List Expectation),
        expects = l₁ ++ e :: l₂ →
        (∀ e' ∈ l₁, admitsTriple e' cd i j k = false) →
        admitsTriple e cd i j k = true →
        (generateTests path f expects).filter
          (fun st => st.id == testId f.test_name i cd j k) =
          [mkStateTest path f i cd j g k v e]) := by
  have hmem : ((i, cd), (j, g), (k, v)) ∈ tripleList f := by
    rw [tripleList]
    exact List.mem_product.mpr
      ⟨get?_mem_enum hd, List.mem_product.mpr ⟨get?_mem_enum hg, get?_mem_enum hv⟩⟩
  have hkey : (generateTests path f expects).filter
      (fun st => st.id == testId f.test_name i cd j k) =
      (emitTriple path f expects i cd j g k v).toList := by
    rw [generateTests]
    apply filter_filterMap_unique _ _ _ ((i, cd), (j, g), (k, v)) (tripleList_nodup f) hmem
    intro t ht st hFt
    obtain ⟨⟨i', cd'⟩, ⟨j', g'⟩, ⟨k', v'⟩⟩ := t
    obtain ⟨e', hfind', hmk'⟩ := emitTriple_some_elim hFt
    constructor
    · intro hbeq
      have hideq : st.id = testId f.test_name i cd j k := beq_iff_eq.mp hbeq
      have hids : testId f.test_name i' cd' j' k' = testId f.test_name i cd j k := by
        rw [← mkStateTest_id path f i' cd' j' g' k' v' e', ← hmk', hideq]
      obtain ⟨hi, hj, hk, _⟩ := testId_inj _ _ _ _ _ _ _ _ _ hids
      subst hi; subst hj; subst hk
      obtain ⟨hd', hg', hv'⟩ := mem_tripleList ht
      rw [hd] at hd'
      rw [hg] at hg'
      rw [hv] at hv'
      simp only [Option.some.injEq] at hd' hg' hv'
      rw [hd', hg', hv']
    · intro hteq
      simp only [Prod.mk.injEq] at hteq
      obtain ⟨⟨hi, hcd⟩, ⟨hj, _⟩, ⟨hk, _⟩⟩ := hteq
      subst hi; subst hcd; subst hj; subst hk
      rw [hmk', mkStateTest_id]
      exact beq_self_eq_true _
  refine ⟨?_, ?_⟩
  · intro hnone
    rw [hkey, emitTriple_eq_none path f expects i cd j g k v hnone]
    rfl
  · intro l₁ e l₂ hsplit hnone hadm
    rw [hkey, emitTriple_first path f expects i cd j g k v l₁ e l₂ hsplit hnone hadm]
    rfl

/-- Claim C2, witness: in `fixArith`, the triple `(0, 0, 0)` with the
expectation list `[eLabel]` (which does not admit it) yields no test, and
with `[eLabel, eWild]` the first admitting expectation `eWild` is bound. -/
theorem c2_first_match_per_triple_witness :
    (generateTests "" fixArith [eLabel]).filter
      (fun st => st.id == testId fixArith.test_name 0 cdPlain 0 0) = []
    ∧ (generateTests "" fixArith [eLabel, eWild]).filter
      (fun st => st.id == testId fixArith.test_name 0 cdPlain 0 0) =
      [mkStateTest "" fixArith 0 cdPlain 0 80000000 0 1 eWild] :=
  ⟨(c2_first_match_per_triple "" fixArith [eLabel] 0 0 0 cdPlain 80000000 1
      (by decide) (by decide) (by decide)).1 (by decide),
   (c2_first_match_per_triple "" fixArith [eLabel, eWild] 0 0 0 cdPlain 80000000 1
      (by decide) (by decide) (by decide)).2 [eLabel] eWild [] rfl (by decide) (by decide)⟩

/-- Claim C3.  When some retained expectation has all-wildcard data, gas
and value selectors, every triple of the cross product is admitted by at
least one expectation, so exactly `D * G * V` tests are emitted. -/
theorem c3_wildcard_full_product (path : String) (f : Fixture) (expects : List Expectation)
    (h : ∃ e ∈ expects, e.data_refs.val = [Ref.Any] ∧ e.gas_refs.val = [Ref.Any] ∧
      e.value_refs.val = [Ref.Any]) :
    (generateTests path f expects).length =
      f.data_s.length * (f.gas_limit_s.length * f.value_s.length) := by
  rw [generateTests]
  rw [length_filterMap_of_isSome _ _ ?h]
  · exact tripleList_length f
  case h =>
    intro t ht
    obtain ⟨⟨i, cd⟩, ⟨j, g⟩, ⟨k, v⟩⟩ := t
    obtain ⟨e, he, h1, h2, h3⟩ := h
    have hadm : admitsTriple e cd i j k = true :=
      admitsTriple_of_any e cd i j k
        (by rw [h1]; exact List.mem_singleton.mpr rfl)
        (by rw [h2]; exact List.mem_singleton.mpr rfl)
        (by rw [h3]; exact List.mem_singleton.mpr rfl)
    have hsome : (List.find? (fun e => admitsTriple e cd i j k) expects).isSome = true :=
      List.find?_isSome.mpr ⟨e, he, hadm⟩
    obtain ⟨x, hx⟩ := Option.isSome_iff_exists.mp hsome
    rw [emitTriple, hx]
    rfl

/-- Claim C3, witness: the 2 x 2 x 2 fixture with a catch-all expectation
emits exactly 8 tests. -/
theorem c3_wildcard_full_product_witness :
    (generateTests "" fixArith [eWild]).length =
      fixArith.data_s.length * (fixArith.gas_limit_s.length * fixArith.value_s.length) :=
  c3_wildcard_full_product "" fixArith [eWild] (by decide)

/-- Claim C7 (amended).  Every emitted test id is
`{test_name}_d{idx_data}{suffix}_g{idx_gas}_v{idx_value}` for its triple,
where the suffix is `({label})` exactly when the chosen calldata variant
carries a label; emission is a pure function of the parsed document; and
the ids emitted for one fixture are pairwise distinct.  (Across fixtures
of one load call, ids can collide — see the counterexample.) -/
theorem c7_id_format_unique_per_fixture (path : String) (f : Fixture)
    (expects : List Expectation) :
    (∀ st ∈ generateTests path f expects, ∃ i cd j g k v,
        f.data_s[i]? = some cd ∧ f.gas_limit_s[j]? = some g ∧ f.value_s[k]? = some v ∧
        st.id = testId f.test_name i cd j k)
    ∧ (∀ (nm : String) (i : Nat) (cd : Calldata) (j k : Nat),
        (testId nm i cd j k).data = nm.data ++ ('_' :: 'd' :: (decRepr i ++
          (dataLabelSuffixChars cd ++ ('_' :: 'g' :: (decRepr j ++
            ('_' :: 'v' :: decRepr k)))))))
    ∧ (∀ (cd : Calldata) (l : String),
        (cd.label = some l → dataLabelSuffixChars cd = '(' :: (l.data ++ [')']))
        ∧ (cd.label = none → dataLabelSuffixChars cd = []))
    ∧ ((generateTests path f expects).map (fun st => st.id)).Nodup := by
  refine ⟨?_, ?_, ?_, generateTests_ids_nodup path f expects⟩
  · intro st hst
    rw [generateTests] at hst
    obtain ⟨t, ht, hF⟩ := List.mem_filterMap.mp hst
    obtain ⟨⟨i, cd⟩, ⟨j, g⟩, ⟨k, v⟩⟩ := t
    obtain ⟨e, hfind, hmk⟩ := emitTriple_some_elim hF
    obtain ⟨hd, hg, hv⟩ := mem_tripleList ht
    exact ⟨i, cd, j, g, k, v, hd, hg, hv, by rw [hmk, mkStateTest_id]⟩
  · intro nm i cd j k
    exact testId_data nm i cd j k
  · intro cd l
    constructor
    · intro h
      rw [dataLabelSuffixChars, h]
    · intro h
      rw [dataLabelSuffixChars, h]

/-- Claim C7, witness: the format parts applied to a concrete emitted test
and concrete variants, plus distinctness of the 8 concrete ids. -/
theorem c7_id_format_unique_per_fixture_witness :
    (∃ i cd j g k v,
        fixArith.data_s[i]? = some cd ∧ fixArith.gas_limit_s[j]? = some g ∧
        fixArith.value_s[k]? = some v ∧ stW.id = testId fixArith.test_name i cd j k)
    ∧ dataLabelSuffixChars cdLabeled = '(' :: (("data1" : String).data ++ [')'])
    ∧ ((generateTests "" fixArith [eWild]).map (fun st => st.id)).Nodup :=
  ⟨(c7_id_format_unique_per_fixture "" fixArith [eWild]).1 stW (by decide),
   ((c7_id_format_unique_per_fixture "" fixArith [eWild]).2.2.1 cdLabeled "data1").1 rfl,
   (c7_id_format_unique_per_fixture "" fixArith [eWild]).2.2.2⟩

/-- Claim C7, counterexample to the claim as stated: one load call over
two fixtures whose names and labels contain `(`, `)` and `_` emits two
tests with the same id, so ids are not pairwise distinct within a load
call. -/
theorem c7_counterexample :
    (loadTests (fun _ => true) "" [fixCollide1, fixCollide2]).map (fun st => st.id) =
      ["t_d0(0)_g0_v0_d0(0)_g0_v0", "t_d0(0)_g0_v0_d0(0)_g0_v0"]
    ∧ ¬ (((loadTests (fun _ => true) "" [fixCollide1, fixCollide2]).map
        (fun st => st.id)).Nodup) := by
  decide

theorem retainExpects_filter (p : List String → Bool) (raw : List RawExpect) :
    retainExpects p (raw.filter (fun x => p x.networks)) = retainExpects p raw := by
  induction raw with
  | nil => rfl
  | cons r t ih =>
    rw [List.filter_cons]
    cases hp : p r.networks with
    | false =>
      rw [if_neg (by simp [hp])]
      show retainExpects p (t.filter (fun x => p x.networks)) = _
      rw [ih]
      show retainExpects p t = List.filterMap (processExpect p) (r :: t)
      rw [List.filterMap_cons]
      rw [show processExpect p r = none from by rw [processExpect, if_neg (by simp [hp])]]
      rfl
    | true =>
      rw [if_pos (by simp [hp])]
      show List.filterMap (processExpect p) (r :: t.filter (fun x => p x.networks)) =
        List.filterMap (processExpect p) (r :: t)
      rw [List.filterMap_cons, List.filterMap_cons]
      cases processExpect p r with
      | none => exact ih
      | some e =>
        show e :: retainExpects p (t.filter (fun x => p x.networks)) = e :: retainExpects p t
        rw [ih]

/-- Claim C8.  An `expect` entry is retained iff the active-network
predicate admits its network-filter list; its exception flag is true iff
at least one network key of its `expectException` mapping is individually
admitted by the predicate; and discarded entries are never consulted by
the expander — removing them from the raw list before filtering leaves
the emitted tests unchanged. -/
theorem c8_network_filter_and_exception (p : List String → Bool) (r : RawExpect)
    (pathS : String) (f : Fixture) :
    (processExpect p r).isSome = p r.networks
    ∧ (∀ e, processExpect p r = some e →
        (e.exception = true ↔ ∃ pr ∈ r.expectException.getD [], p [pr.1] = true))
    ∧ generateTests pathS f (retainExpects p (f.expects_raw.filter (fun x => p x.networks))) =
        loadFixture p pathS f := by
  refine ⟨?_, ?_, ?_⟩
  · rw [processExpect]
    cases hp : p r.networks with
    | false => rw [if_neg (by simp [hp])]; rfl
    | true => rw [if_pos (by simp [hp])]; rfl
  · intro e he
    rw [processExpect] at he
    by_cases hp : p r.networks = true
    · rw [if_pos hp] at he
      simp only [Option.some.injEq] at he
      rw [← he]
      show computeException p r.expectException = true ↔ _
      cases hx : r.expectException with
      | none => simp [computeException, hx]
      | some lst => simp [computeException, hx, List.any_eq_true]
    · rw [if_neg hp] at he
      exact absurd he (by simp)
  · rw [loadFixture, retainExpects_filter]

/-- Claim C8, witness: the concrete predicate admitting exactly
`[">=Istanbul"]` against the catch-all raw entry and the
exception-bearing raw entry. -/
theorem c8_network_filter_and_exception_witness :
    (processExpect pIstanbul rawWild).isSome = pIstanbul rawWild.networks
    ∧ (eExc.exception = true ↔ ∃ pr ∈ rawExc.expectException.getD [], pIstanbul [pr.1] = true) :=
  ⟨(c8_network_filter_and_exception pIstanbul rawWild "" fixArith).1,
   (c8_network_filter_and_exception pIstanbul rawExc "" fixArith).2.1 eExc (by decide)⟩
